import Mathlib

/-!
Verification development for the `whatami` configuration-id utilities
(`whatami/whatutils.py` and its tests).

The repository ships `whatutils.py` (the legacy-id migration and the
flatten/sort utilities) together with tests for the encoder plugins.  The
core value model, the canonical encoder, the grammar decoder and the
`What.__getitem__` lookup live outside the shipped sources, so those parts
are modelled here from the specification (each such definition carries a
`Modelled from the spec` note); everything from `whatutils.py` is
translated directly from its code.
-/

namespace Whatami

/-- Modelled from the spec (§3 data model): ordered collections carry a
list/tuple tag. -/
inductive SeqTag where
  | list
  | tup
  deriving DecidableEq, Repr

/-- Modelled from the spec (§3 data model): sets carry a set/frozenset tag. -/
inductive SetTag where
  | set
  | frozen
  deriving DecidableEq, Repr

/-- Modelled from the spec (§3 data model): the closed set of value variants.
`float` stores the decimal literal (sign, digits, optional fraction) exactly
as written, which is the shortest round-tripping representation for literals
appearing in ids; `named` is a name plus field/value pairs kept in insertion
order (the encoder sorts them). -/
inductive Value where
  | null
  | bool (b : Bool)
  | int (n : Int)
  | float (lit : String)
  | text (s : String)
  | seq (tag : SeqTag) (items : List Value)
  | vset (tag : SetTag) (items : List Value)
  | vmap (pairs : List (Value × Value))
  | named (name : String) (conf : List (String × Value))
  deriving Repr

mutual

def decEqValue : (v w : Value) → Decidable (v = w)
  | .null, .null => .isTrue rfl
  | .bool a, .bool b =>
    match decEq a b with
    | .isTrue h => .isTrue (by rw [h])
    | .isFalse h => .isFalse (fun he => h (by cases he; rfl))
  | .int a, .int b =>
    match decEq a b with
    | .isTrue h => .isTrue (by rw [h])
    | .isFalse h => .isFalse (fun he => h (by cases he; rfl))
  | .float a, .float b =>
    match decEq a b with
    | .isTrue h => .isTrue (by rw [h])
    | .isFalse h => .isFalse (fun he => h (by cases he; rfl))
  | .text a, .text b =>
    match decEq a b with
    | .isTrue h => .isTrue (by rw [h])
    | .isFalse h => .isFalse (fun he => h (by cases he; rfl))
  | .seq t xs, .seq u ys =>
    match decEq t u, decEqValueList xs ys with
    | .isTrue h1, .isTrue h2 => .isTrue (by rw [h1, h2])
    | .isFalse h1, _ => .isFalse (fun he => h1 (by cases he; rfl))
    | _, .isFalse h2 => .isFalse (fun he => h2 (by cases he; rfl))
  | .vset t xs, .vset u ys =>
    match decEq t u, decEqValueList xs ys with
    | .isTrue h1, .isTrue h2 => .isTrue (by rw [h1, h2])
    | .isFalse h1, _ => .isFalse (fun he => h1 (by cases he; rfl))
    | _, .isFalse h2 => .isFalse (fun he => h2 (by cases he; rfl))
  | .vmap ps, .vmap qs =>
    match decEqValuePairs ps qs with
    | .isTrue h => .isTrue (by rw [h])
    | .isFalse h => .isFalse (fun he => h (by cases he; rfl))
  | .named n cf, .named m cg =>
    match decEq n m, decEqValueConf cf cg with
    | .isTrue h1, .isTrue h2 => .isTrue (by rw [h1, h2])
    | .isFalse h1, _ => .isFalse (fun he => h1 (by cases he; rfl))
    | _, .isFalse h2 => .isFalse (fun he => h2 (by cases he; rfl))
  | .null, .bool _
  | .null, .int _
  | .null, .float _
  | .null, .text _
  | .null, .seq _ _
  | .null, .vset _ _
  | .null, .vmap _
  | .null, .named _ _
  | .bool _, .null
  | .bool _, .int _
  | .bool _, .float _
  | .bool _, .text _
  | .bool _, .seq _ _
  | .bool _, .vset _ _
  | .bool _, .vmap _
  | .bool _, .named _ _
  | .int _, .null
  | .int _, .bool _
  | .int _, .float _
  | .int _, .text _
  | .int _, .seq _ _
  | .int _, .vset _ _
  | .int _, .vmap _
  | .int _, .named _ _
  | .float _, .null
  | .float _, .bool _
  | .float _, .int _
  | .float _, .text _
  | .float _, .seq _ _
  | .float _, .vset _ _
  | .float _, .vmap _
  | .float _, .named _ _
  | .text _, .null
  | .text _, .bool _
  | .text _, .int _
  | .text _, .float _
  | .text _, .seq _ _
  | .text _, .vset _ _
  | .text _, .vmap _
  | .text _, .named _ _
  | .seq _ _, .null
  | .seq _ _, .bool _
  | .seq _ _, .int _
  | .seq _ _, .float _
  | .seq _ _, .text _
  | .seq _ _, .vset _ _
  | .seq _ _, .vmap _
  | .seq _ _, .named _ _
  | .vset _ _, .null
  | .vset _ _, .bool _
  | .vset _ _, .int _
  | .vset _ _, .float _
  | .vset _ _, .text _
  | .vset _ _, .seq _ _
  | .vset _ _, .vmap _
  | .vset _ _, .named _ _
  | .vmap _, .null
  | .vmap _, .bool _
  | .vmap _, .int _
  | .vmap _, .float _
  | .vmap _, .text _
  | .vmap _, .seq _ _
  | .vmap _, .vset _ _
  | .vmap _, .named _ _
  | .named _ _, .null
  | .named _ _, .bool _
  | .named _ _, .int _
  | .named _ _, .float _
  | .named _ _, .text _
  | .named _ _, .seq _ _
  | .named _ _, .vset _ _
  | .named _ _, .vmap _ => .isFalse (by simp)
termination_by structural v => v

def decEqValueList : (xs ys : List Value) → Decidable (xs = ys)
  | [], [] => .isTrue rfl
  | x :: xs, y :: ys =>
    match decEqValue x y, decEqValueList xs ys with
    | .isTrue h1, .isTrue h2 => .isTrue (by rw [h1, h2])
    | .isFalse h1, _ => .isFalse (fun he => h1 (by cases he; rfl))
    | _, .isFalse h2 => .isFalse (fun he => h2 (by cases he; rfl))
  | [], _ :: _ => .isFalse (by simp)
  | _ :: _, [] => .isFalse (by simp)
termination_by structural xs => xs

def decEqValuePairs : (ps qs : List (Value × Value)) → Decidable (ps = qs)
  | [], [] => .isTrue rfl
  | (k, x) :: ps, (l, y) :: qs =>
    match decEqValue k l, decEqValue x y, decEqValuePairs ps qs with
    | .isTrue h0, .isTrue h1, .isTrue h2 => .isTrue (by rw [h0, h1, h2])
    | .isFalse h0, _, _ => .isFalse (fun he => h0 (by cases he; rfl))
    | _, .isFalse h1, _ => .isFalse (fun he => h1 (by cases he; rfl))
    | _, _, .isFalse h2 => .isFalse (fun he => h2 (by cases he; rfl))
  | [], _ :: _ => .isFalse (by simp)
  | _ :: _, [] => .isFalse (by simp)
termination_by structural ps => ps

def decEqValueConf : (ps qs : List (String × Value)) → Decidable (ps = qs)
  | [], [] => .isTrue rfl
  | (k, x) :: ps, (l, y) :: qs =>
    match decEq k l, decEqValue x y, decEqValueConf ps qs with
    | .isTrue h0, .isTrue h1, .isTrue h2 => .isTrue (by rw [h0, h1, h2])
    | .isFalse h0, _, _ => .isFalse (fun he => h0 (by cases he; rfl))
    | _, .isFalse h1, _ => .isFalse (fun he => h1 (by cases he; rfl))
    | _, _, .isFalse h2 => .isFalse (fun he => h2 (by cases he; rfl))
  | [], _ :: _ => .isFalse (by simp)
  | _ :: _, [] => .isFalse (by simp)
termination_by structural ps => ps

end

instance : DecidableEq Value := decEqValue

instance {ε α : Type} [DecidableEq ε] [DecidableEq α] : DecidableEq (Except ε α) :=
  fun a b =>
    match a, b with
    | .ok x, .ok y =>
      match decEq x y with
      | .isTrue h => .isTrue (by rw [h])
      | .isFalse h => .isFalse (fun he => h (by cases he; rfl))
    | .error e, .error f =>
      match decEq e f with
      | .isTrue h => .isTrue (by rw [h])
      | .isFalse h => .isFalse (fun he => h (by cases he; rfl))
    | .ok _, .error _ => .isFalse (fun he => Except.noConfusion he)
    | .error _, .ok _ => .isFalse (fun he => Except.noConfusion he)

/-- Lexicographic comparison of character lists by code point (the order
Python uses for strings). -/
def charListCompare : List Char → List Char → Ordering
  | [], [] => .eq
  | [], _ :: _ => .lt
  | _ :: _, [] => .gt
  | a :: xs, b :: ys =>
    if a < b then .lt else if b < a then .gt else charListCompare xs ys

/-- Lexicographic string comparison by code point. -/
def strCompare (a b : String) : Ordering := charListCompare a.data b.data

/-- Escape backslash and single quote, the two characters the canonical
text encoding protects (spec §4.2). -/
def escapeText (s : String) : String :=
  String.mk (s.data.flatMap (fun c =>
    if c = '\\' || c = '\'' then ['\\', c] else [c]))

/-- Sort a list of strings lexicographically (canonical set-element order,
spec §4.2). -/
def sortStrings (l : List String) : List String :=
  l.insertionSort (fun a b => strCompare a b ≠ .gt)

/-- Sort rendered key/value pairs by the rendered key (canonical mapping and
named-field order, spec §4.2). -/
def sortRendered (l : List (String × String)) : List (String × String) :=
  l.insertionSort (fun a b => strCompare a.1 b.1 ≠ .gt)

mutual

/-- Modelled from the spec (§4.2 canonical encoder) and the rendered forms
asserted by `tests/test_plugins.py`: empty set is `set()`, empty frozenset is
`frozenset()`, nonempty sets render braced with elements sorted by their own
encoding, mappings render `{k:v,...}` sorted by encoded key, named values
render `Name(k=v,...)` with fields sorted by field name. -/
def encode : Value → String
  | .null => "None"
  | .bool b => if b then "True" else "False"
  | .int n => toString n
  | .float lit => lit
  | .text s => "'" ++ escapeText s ++ "'"
  | .seq t xs =>
    match t, encodeList xs with
    | .list, es => "[" ++ String.intercalate "," es ++ "]"
    | .tup, [e] => "(" ++ e ++ ",)"
    | .tup, es => "(" ++ String.intercalate "," es ++ ")"
  | .vset t xs =>
    match t, sortStrings (encodeList xs) with
    | .set, [] => "set()"
    | .set, es => "\x7b" ++ String.intercalate "," es ++ "\x7d"
    | .frozen, [] => "frozenset()"
    | .frozen, es => "frozenset(\x7b" ++ String.intercalate "," es ++ "\x7d)"
  | .vmap ps =>
    let rs := sortRendered (encodePairs ps)
    "\x7b" ++ String.intercalate "," (rs.map (fun p => p.1 ++ ":" ++ p.2)) ++ "\x7d"
  | .named n conf =>
    let rs := sortRendered (encodeConf conf)
    n ++ "(" ++ String.intercalate "," (rs.map (fun p => p.1 ++ "=" ++ p.2)) ++ ")"

def encodeList : List Value → List String
  | [] => []
  | x :: xs => encode x :: encodeList xs

def encodePairs : List (Value × Value) → List (String × String)
  | [] => []
  | (k, v) :: ps => (encode k, encode v) :: encodePairs ps

def encodeConf : List (String × Value) → List (String × String)
  | [] => []
  | (k, v) :: ps => (k, encode v) :: encodeConf ps

end

/-! ### Canonical value-literal decoder

Modelled from the spec (§4.3 grammar): a recursive-descent parser over the
character list with an explicit fuel bound (the fuel only limits nesting
depth; `decodeValue` supplies more than the input length, which always
suffices because every recursion level consumes input). -/

def skipWs : List Char → List Char
  | ' ' :: cs => skipWs cs
  | cs => cs

def isIdentStart (c : Char) : Bool := c.isAlpha || c = '_'

def isIdentChar (c : Char) : Bool := c.isAlphanum || c = '_'

/-- Scan a single-quoted string body after the opening quote: a backslash
escapes the next character; an unescaped quote terminates. -/
def scanStr : List Char → Option (List Char × List Char)
  | [] => none
  | '\\' :: c :: cs => (scanStr cs).map (fun r => (c :: r.1, r.2))
  | '\'' :: cs => some ([], cs)
  | c :: cs => (scanStr cs).map (fun r => (c :: r.1, r.2))

def digitsToNat (ds : List Char) : Nat :=
  ds.foldl (fun a c => a * 10 + (c.toNat - '0'.toNat)) 0

/-- Parse an integer or float literal: optional minus, digits, and for floats
a dot plus fraction digits; the float keeps its literal text. -/
def parseNumber (cs : List Char) : Option (Value × List Char) :=
  let (neg, cs1) := match cs with | '-' :: r => (true, r) | _ => (false, cs)
  let (ds, cs2) := cs1.span Char.isDigit
  if ds.isEmpty then none
  else
    match cs2 with
    | '.' :: cs3 =>
      let (fs, cs4) := cs3.span Char.isDigit
      if fs.isEmpty then none
      else some (.float ((if neg then "-" else "") ++ String.mk ds ++ "." ++ String.mk fs), cs4)
    | _ =>
      let n : Int := Int.ofNat (digitsToNat ds)
      some (.int (if neg then -n else n), cs2)

mutual

def parseValue : Nat → List Char → Option (Value × List Char)
  | 0, _ => none
  | fuel+1, cs =>
    match skipWs cs with
    | [] => none
    | '\'' :: rest => (scanStr rest).map (fun r => (.text (String.mk r.1), r.2))
    | '(' :: rest => (parseElems fuel rest ')').map (fun r => (.seq .tup r.1, r.2))
    | '[' :: rest => (parseElems fuel rest ']').map (fun r => (.seq .list r.1, r.2))
    | '\x7b' :: rest => parseBrace fuel rest
    | c :: _ =>
      if c = '-' || c.isDigit then parseNumber (skipWs cs)
      else if isIdentStart c then
        match (skipWs cs).span isIdentChar with
        | (tok, cs1) => parseAfterIdent fuel (String.mk tok) cs1
      else none

def parseAfterIdent : Nat → String → List Char → Option (Value × List Char)
  | 0, _, _ => none
  | fuel+1, tok, cs =>
    if tok = "None" then some (.null, cs)
    else if tok = "True" then some (.bool true, cs)
    else if tok = "False" then some (.bool false, cs)
    else
      match skipWs cs with
      | '(' :: cs2 =>
        if tok = "set" then
          match skipWs cs2 with
          | ')' :: r => some (.vset .set [], r)
          | _ => none
        else if tok = "frozenset" then
          match skipWs cs2 with
          | ')' :: r => some (.vset .frozen [], r)
          | '\x7b' :: r =>
            match parseElems fuel r '\x7d' with
            | some (xs, r2) =>
              match skipWs r2 with
              | ')' :: r3 => some (.vset .frozen xs, r3)
              | _ => none
            | none => none
          | _ => none
        else
          (parseFields fuel cs2).map (fun r => (.named tok r.1, r.2))
      | _ => none

def parseElems : Nat → List Char → Char → Option (List Value × List Char)
  | 0, _, _ => none
  | fuel+1, cs, close =>
    match skipWs cs with
    | c :: rest =>
      if c = close then some ([], rest)
      else
        match parseValue fuel cs with
        | some (v, r) =>
          match skipWs r with
          | ',' :: r2 =>
            (match skipWs r2 with
             | c2 :: r3 =>
               if c2 = close then some ([v], r3)
               else
                 match parseElems fuel r2 close with
                 | some (xs, r4) => some (v :: xs, r4)
                 | none => none
             | [] => none)
          | c2 :: r2 => if c2 = close then some ([v], r2) else none
          | [] => none
        | none => none
    | [] => none

def parseBrace : Nat → List Char → Option (Value × List Char)
  | 0, _ => none
  | fuel+1, cs =>
    match skipWs cs with
    | '\x7d' :: r => some (.vmap [], r)
    | _ =>
      match parseValue fuel cs with
      | some (v, r) =>
        match skipWs r with
        | ':' :: r2 =>
          (match parseValue fuel r2 with
           | some (w, r3) =>
             match skipWs r3 with
             | ',' :: r4 =>
               (match parsePairs fuel r4 with
                | some (ps, r5) => some (.vmap ((v, w) :: ps), r5)
                | none => none)
             | '\x7d' :: r4 => some (.vmap [(v, w)], r4)
             | _ => none
           | none => none)
        | ',' :: r2 =>
          (match parseElems fuel r2 '\x7d' with
           | some (xs, r3) => some (.vset .set (v :: xs), r3)
           | none => none)
        | '\x7d' :: r2 => some (.vset .set [v], r2)
        | _ => none
      | none => none

def parsePairs : Nat → List Char → Option (List (Value × Value) × List Char)
  | 0, _ => none
  | fuel+1, cs =>
    match parseValue fuel cs with
    | some (v, r) =>
      match skipWs r with
      | ':' :: r2 =>
        (match parseValue fuel r2 with
         | some (w, r3) =>
           match skipWs r3 with
           | ',' :: r4 =>
             (match parsePairs fuel r4 with
              | some (ps, r5) => some ((v, w) :: ps, r5)
              | none => none)
           | '\x7d' :: r4 => some ([(v, w)], r4)
           | _ => none
         | none => none)
      | _ => none
    | none => none

def parseFields : Nat → List Char → Option (List (String × Value) × List Char)
  | 0, _ => none
  | fuel+1, cs =>
    match skipWs cs with
    | ')' :: r => some ([], r)
    | c :: _ =>
      if isIdentStart c then
        match (skipWs cs).span isIdentChar with
        | (tok, cs1) =>
          match skipWs cs1 with
          | '=' :: cs2 =>
            (match parseValue fuel cs2 with
             | some (v, r) =>
               match skipWs r with
               | ',' :: r2 =>
                 (match parseFields fuel r2 with
                  | some (fs, r3) => some ((String.mk tok, v) :: fs, r3)
                  | none => none)
               | ')' :: r2 => some ([(String.mk tok, v)], r2)
               | _ => none
             | none => none)
          | _ => none
      else none
    | [] => none

end

/-- Modelled from the spec (§4.3): decode a full canonical value literal;
fails unless the whole input (up to trailing spaces) is consumed. -/
def decodeValue (s : String) : Option Value :=
  match parseValue (2 * s.length + 4) s.data with
  | some (v, r) => if skipWs r = [] then some v else none
  | none => none

/-! ### Legacy decoder (`oldid2what`, from `whatutils.py`)

The `out=` prefix handling and the ambiguity check are translated from
`whatutils.oldid2what`; the body grammar (`Name#key=value#...`) is modelled
from the spec (§4.4): split on `#`, the first segment is the name, each later
segment splits on its first `=` into a field name and a canonical value
literal.  A bare name with no `#`-separated field does not match (the shipped
doctest shows `id2whatami4("velocity")` falling through unchanged). -/

inductive Err where
  | noMatch
  | ambiguousKey (a b : String)
  deriving DecidableEq, Repr

/-- Split a character list at every occurrence of `sep` (Python
`str.split(sep)` semantics: `n` separators yield `n+1` groups). -/
def splitChar (sep : Char) : List Char → List (List Char)
  | [] => [[]]
  | c :: cs =>
    if c = sep then [] :: splitChar sep cs
    else
      match splitChar sep cs with
      | g :: gs => (c :: g) :: gs
      | [] => [[c]]

/-- The `#`-separated segments of a legacy id. -/
def splitHash (s : String) : List String := (splitChar '#' s.data).map String.mk

/-- Strip leading and trailing spaces. -/
def trimSpaces (cs : List Char) : List Char :=
  ((cs.dropWhile (fun c => c = ' ')).reverse.dropWhile (fun c => c = ' ')).reverse

def splitFirstEq (cs : List Char) : Option (List Char × List Char) :=
  match cs.span (fun c => c != '=') with
  | (k, '=' :: v) => some (k, v)
  | _ => none

def isIdentStr (s : String) : Bool :=
  match s.data with
  | [] => false
  | c :: cs => isIdentStart c && cs.all isIdentChar

/-- One `key=value` segment of a legacy id: split at the first `=`, the key
must be an identifier, the value a complete canonical literal. -/
def parseFieldSeg (seg : String) : Option (String × Value) :=
  match splitFirstEq seg.data with
  | some (k, rest) =>
    let key := String.mk (trimSpaces k)
    if isIdentStr key then
      match parseValue (2 * rest.length + 4) rest with
      | some (v, r) => if skipWs r = [] then some (key, v) else none
      | none => none
    else none
  | none => none

/-- Modelled from the spec (§4.4): the legacy body `Name#k1=v1#...` as name
plus fields in textual order. -/
def parseOldBody (s : String) : Except Err (String × List (String × Value)) :=
  match splitHash s with
  | name :: seg1 :: segs =>
    if isIdentStr name then
      match (seg1 :: segs).mapM parseFieldSeg with
      | some conf => .ok (name, conf)
      | none => .error .noMatch
    else .error .noMatch
  | _ => .error .noMatch

def lookupStr (conf : List (String × Value)) (k : String) : Option Value :=
  match conf.find? (fun p => p.1 == k) with
  | some p => some p.2
  | none => none

/-- How Python's `"%s"` renders a field value inside the ambiguity error
message: a string renders bare, anything else by its canonical encoding. -/
def pyStr : Value → String
  | .text s => s
  | v => encode v

/-- The raw text of a leading `out=` prefix: the part of the id before the
first `#`, with `out=` stripped (`out, _, _ = oldwhatid.partition('#');
out = out[4:]` in the source). -/
def outSegment (s : String) : String :=
  String.mk (((splitChar '#' s.data).headD []).drop 4)

/-- The id after the first `#` (the third component of Python's
`partition('#')`). -/
def bodyAfterOut (s : String) : String :=
  String.intercalate "#" (splitHash s).tail

/-- Whether the id carries the legacy `out=` prefix (`startswith('out=')`). -/
def hasOutMark (s : String) : Bool := "out=".data.isPrefixOf s.data

/-- Translated from `whatutils.oldid2what`: strip an optional leading `out=`
prefix, decode the rest, then either fail on an ambiguous `out` field or
insert the prefix value (as text) under key `out`. -/
def oldid2what (oldwhatid : String) : Except Err Value :=
  if hasOutMark oldwhatid then
    let out := outSegment oldwhatid
    match parseOldBody (bodyAfterOut oldwhatid) with
    | .ok nc =>
      match lookupStr nc.2 "out" with
      | some v => .error (.ambiguousKey out (pyStr v))
      | none => .ok (.named nc.1 (nc.2 ++ [("out", .text out)]))
    | .error e => .error e
  else
    match parseOldBody oldwhatid with
    | .ok nc => .ok (.named nc.1 nc.2)
    | .error e => .error e

/-- Translated from `whatutils.id2whatami4`: re-encode a successfully decoded
legacy id; pass the input through unchanged on a grammar mismatch (`NoMatch`);
let any other failure (the ambiguity `ValueError`) propagate. -/
def id2whatami4 (oldwhatid : String) : Except Err String :=
  match oldid2what oldwhatid with
  | .ok w => .ok (encode w)
  | .error .noMatch => .ok oldwhatid
  | .error e => .error e

/-! ### Ordering on values

Modelled from the spec (§4.5): numeric values (bools, ints, floats) compare
numerically, texts compare lexicographically, and any other (or mixed)
combination falls back to comparing canonical strings. -/

def tenPow : Nat → Nat
  | 0 => 1
  | n+1 => 10 * tenPow n

def intCompare (a b : Int) : Ordering :=
  if a < b then .lt else if b < a then .gt else .eq

/-- Read a decimal literal as an exact rational `(numerator, fraction
digits)`: `-12.25` becomes `(-1225, 2)`. -/
def litToQ (lit : String) : Option (Int × Nat) :=
  let cs := lit.data
  let (neg, cs1) := match cs with | '-' :: r => (true, r) | _ => (false, cs)
  let (ds, cs2) := cs1.span Char.isDigit
  if ds.isEmpty then none
  else
    match cs2 with
    | [] => some ((if neg then -1 else 1) * Int.ofNat (digitsToNat ds), 0)
    | '.' :: cs3 =>
      let (fs, cs4) := cs3.span Char.isDigit
      if fs.isEmpty || !cs4.isEmpty then none
      else some ((if neg then -1 else 1) * Int.ofNat (digitsToNat (ds ++ fs)), fs.length)
    | _ => none

/-- The numeric reading of a value, when it has one (Python compares bools,
ints and floats as numbers). -/
def numQ : Value → Option (Int × Nat)
  | .int n => some (n, 0)
  | .bool b => some (if b then 1 else 0, 0)
  | .float lit => litToQ lit
  | _ => none

/-- Compare two scaled decimals exactly by cross-multiplication. -/
def qCompare (a b : Int × Nat) : Ordering :=
  intCompare (a.1 * Int.ofNat (tenPow b.2)) (b.1 * Int.ofNat (tenPow a.2))

/-- The non-numeric comparison: texts compare by their raw characters,
anything else by canonical encoding. -/
def fallbackCompare (a b : Value) : Ordering :=
  match a, b with
  | .text s, .text t => strCompare s t
  | _, _ => strCompare (encode a) (encode b)

def valueCompare (a b : Value) : Ordering :=
  match numQ a, numQ b with
  | some p, some q => qCompare p q
  | _, _ => fallbackCompare a b

/-- Lexicographic comparison of extracted value tuples (Python tuple
comparison). -/
def listValCompare : List Value → List Value → Ordering
  | [], [] => .eq
  | [], _ :: _ => .lt
  | _ :: _, [] => .gt
  | x :: xs, y :: ys =>
    match valueCompare x y with
    | .eq => listValCompare xs ys
    | o => o

/-! ### Key-path lookup

Modelled from the spec (§4.1): `What.__getitem__` descends through Named
field names, Sequence/Set positions and Mapping keys, failing when a path
segment is absent. -/

def lookup1 (v k : Value) : Option Value :=
  match v, k with
  | .named _ conf, .text s => lookupStr conf s
  | .seq _ xs, .int i => if i < 0 then none else xs[i.toNat]?
  | .vset _ xs, .int i => if i < 0 then none else xs[i.toNat]?
  | .vmap ps, _ =>
    match ps.find? (fun p => p.1 == k) with
    | some p => some p.2
    | none => none
  | _, _ => none

def lookupPath : Value → List Value → Option Value
  | v, [] => some v
  | v, k :: ks =>
    match lookup1 v k with
    | some c => lookupPath c ks
    | none => none

/-! ### Flattening (`flatten_what`, from `whatutils.py`)

Translated from `whatutils.flatten_what`: a depth-first traversal that at a
Named or Mapping node visits children in sorted key order
(`sorted(what.conf.items())` / `sorted(what.items())`), at a Sequence node in
positional order (`enumerate`), and treats everything else as a leaf.  Here
each node first flattens its children structurally and then sorts the
per-child results by key, which yields the same output order. -/

/-- One flattened entry: a key path and the value it addresses. -/
abbrev FlatEntry := List Value × Value

/-- A child record: its key, the child value, and the child's own flattened
entries. -/
abbrev ChildRec := Value × Value × List FlatEntry

/-- Order child records by key, asking the total value order; a stable
insertion sort mirrors Python's stable `sorted` (for the unique keys flatten
meets, the value tiebreak Python would apply never fires). -/
def sortChildRecs (ts : List ChildRec) : List ChildRec :=
  ts.insertionSort (fun a b => valueCompare a.1 b.1 ≠ .gt)

/-- Emit each child's key/value followed by the child's own entries, with the
key prefixed onto their paths. -/
def expandChildRecs (ts : List ChildRec) : List FlatEntry :=
  ts.flatMap (fun t => ([t.1], t.2.1) :: t.2.2.map (fun p => (t.1 :: p.1, p.2)))

mutual

def flat : Value → List FlatEntry
  | .named _ conf => expandChildRecs (sortChildRecs (flatConf conf))
  | .seq _ xs => expandChildRecs (flatSeq 0 xs)
  | .vmap ps => expandChildRecs (sortChildRecs (flatPairs ps))
  | _ => []

def flatConf : List (String × Value) → List ChildRec
  | [] => []
  | q :: r => (.text q.1, q.2, flat q.2) :: flatConf r

def flatSeq : Nat → List Value → List ChildRec
  | _, [] => []
  | i, x :: r => (.int (Int.ofNat i), x, flat x) :: flatSeq (i+1) r

def flatPairs : List (Value × Value) → List ChildRec
  | [] => []
  | q :: r => (q.1, q.2, flat q.2) :: flatPairs r

end

/-- Translated from `whatutils.flatten_what`: the aligned lists of key paths
and values. -/
def flatten_what (v : Value) : List (List Value) × List Value :=
  ((flat v).map (fun p => p.1), (flat v).map (fun p => p.2))

/-! ### Key uniqueness (the spec's §3 invariant: Mapping and Named keys are
unique) -/

def distinctStrs : List String → Bool
  | [] => true
  | s :: r => !r.contains s && distinctStrs r

def distinctVals : List Value → Bool
  | [] => true
  | v :: r => !r.contains v && distinctVals r

mutual

def wfValue : Value → Bool
  | .named _ conf => distinctStrs (conf.map (fun p => p.1)) && wfConf conf
  | .seq _ xs => wfList xs
  | .vset _ xs => wfList xs
  | .vmap ps => distinctVals (ps.map (fun p => p.1)) && wfPairs ps
  | _ => true

def wfList : List Value → Bool
  | [] => true
  | x :: r => wfValue x && wfList r

def wfConf : List (String × Value) → Bool
  | [] => true
  | q :: r => wfValue q.2 && wfConf r

def wfPairs : List (Value × Value) → Bool
  | [] => true
  | q :: r => wfValue q.2 && wfPairs r

end

/-! A size measure on values (children are strictly smaller), used to drive
the induction in the flatten/lookup alignment proof. -/

mutual

def valSize : Value → Nat
  | .seq _ xs => 1 + listSize xs
  | .vset _ xs => 1 + listSize xs
  | .vmap ps => 1 + pairsSize ps
  | .named _ conf => 1 + confSize conf
  | _ => 1

def listSize : List Value → Nat
  | [] => 0
  | x :: r => valSize x + listSize r

def pairsSize : List (Value × Value) → Nat
  | [] => 0
  | q :: r => valSize q.2 + pairsSize r

def confSize : List (String × Value) → Nat
  | [] => 0
  | q :: r => valSize q.2 + confSize r

end

/-! ### Extraction and sorting (`whatvalues` / `sort_whats`, from
`whatutils.py`) -/

inductive KErr where
  | keyNotFound (path : List Value)
  deriving DecidableEq, Repr

/-- Translated from `whatutils.whatvalues`: the tuple of values at the given
keys, in key order (`tuple(what[key] for key in keys)`); a missing key raises
(`KeyNotFound`) at the first absent key, it is never defaulted. -/
def whatvalues (what : Value) (keys : List (List Value)) : Except KErr (List Value) :=
  match keys with
  | [] => .ok []
  | k :: ks =>
    match lookupPath what k with
    | none => .error (.keyNotFound k)
    | some v =>
      match whatvalues what ks with
      | .ok vs => .ok (v :: vs)
      | .error e => .error e

/-- The extraction loop of `sort_whats`
(`values = [whatvalues(what, keys) for what in whats]`); the first lookup
failure propagates. -/
def extractAll (whats : List Value) (keys : List (List Value)) :
    Except KErr (List (List Value)) :=
  match whats with
  | [] => .ok []
  | w :: ws =>
    match whatvalues w keys with
    | .error e => .error e
    | .ok tv =>
      match extractAll ws keys with
      | .ok tvs => .ok (tv :: tvs)
      | .error e => .error e

/-- Python's `tuple(zip(*pairs))`: the pair of unzipped tuples for a nonempty
pair list, but the empty tuple (modelled as `none`) when `pairs` is empty. -/
def unzipPairs (pairs : List (List Value × Value)) :
    Option (List Value × List (List Value)) :=
  match pairs with
  | [] => none
  | _ => some (pairs.map (fun p => p.2), pairs.map (fun p => p.1))

/-- Translated from `whatutils.sort_whats`: pair each element with its
extracted value tuple, sort the pairs stably by the tuple alone
(`sorted(zip(values, whats), key=itemgetter(0))`), and return
`tuple(zip(*pairs))`. -/
def sort_whats (whats : List Value) (keys : List (List Value)) :
    Except KErr (Option (List Value × List (List Value))) :=
  match extractAll whats keys with
  | .error e => .error e
  | .ok values =>
    .ok (unzipPairs ((values.zip whats).insertionSort
      (fun a b => listValCompare a.1 b.1 ≠ .gt)))

/-! ### The legacy-grammar cache (`OLD_WHATID_PARSER`, from `whatutils.py`)

`oldid2what` keeps the compiled legacy grammar in a module-level global,
building it on first use.  The state of that global is modelled explicitly:
`cache` holds the instance currently stored, `builds` counts grammar
constructions, and each construction is tagged with the build counter so
distinct constructions are distinguishable. -/

structure ModState where
  cache : Option Nat
  builds : Nat
  deriving DecidableEq, Repr

/-- The module state at import time: `OLD_WHATID_PARSER = None`. -/
def initState : ModState := ⟨none, 0⟩

/-- The cache interaction of one `oldid2what` call: build and store the
grammar if the global is `None`, otherwise use the stored instance.  Returns
the parser instance the call observes. -/
def oldid2whatStep (s : ModState) : Nat × ModState :=
  match s.cache with
  | some p => (p, s)
  | none => (s.builds, { cache := some s.builds, builds := s.builds + 1 })

/-- Run `k` successive `oldid2what` calls, collecting the parser instance
each call observes. -/
def runCalls : Nat → ModState → List Nat × ModState
  | 0, s => ([], s)
  | k+1, s =>
    let (p, s1) := oldid2whatStep s
    let (ps, s2) := runCalls k s1
    (p :: ps, s2)

/-! ### Concrete inputs used by the claims -/

/-- The legacy id of the spec's compatibility example (§8). -/
def legacyEx : String := "out=acc#GoingTowards#im=True#positions=('x','y')#targets=(-0.1,-0.1)"

/-- The decoded form of `legacyEx`: field order is parse order with the
prefixed `out` appended (the encoder sorts field names). -/
def legacyExW : Value :=
  .named "GoingTowards"
    [("im", .bool true),
     ("positions", .seq .tup [.text "x", .text "y"]),
     ("targets", .seq .tup [.float "-0.1", .float "-0.1"]),
     ("out", .text "acc")]

/-- A legacy id defining `out` both by prefix and as an explicit field. -/
def legacyAmbEx : String := "out=acc#GoingTowards#im=True#out='vel'"

/-- The `lpp`-shaped value of the flatten example (spec §8). -/
def exLpp : Value :=
  .named "lpp" [("x", .int 1), ("y", .seq .tup [.int 1, .int 2, .vmap [(.null, .int 3)]])]

/-- One of the `Lagged` values of the sort example (spec §8). -/
def lagged (l : Int) : Value :=
  .named "Lagged"
    [("fex", .named "distcorr" []), ("lag", .int l),
     ("response", .text "acceleration"), ("stimulus", .text "force")]

/-- The sort example's input order: lags `[2, 1, 0, -1, -2]`. -/
def laggedList : List Value :=
  [lagged 2, lagged 1, lagged 0, lagged (-1), lagged (-2)]

/-- The extracted one-element value tuples of `laggedList`. -/
def laggedVals : List (List Value) :=
  [[.int 2], [.int 1], [.int 0], [.int (-1)], [.int (-2)]]

/-! ## Theorems -/

/-- For a conf with no `out` entry, appending `("out", v)` makes `out`
resolve to `v`. -/
theorem lookupStr_append (l : List (String × Value)) (k : String) (v : Value)
    (h : lookupStr l k = none) : lookupStr (l ++ [(k, v)]) k = some v := by
  induction l with
  | nil => simp [lookupStr, List.find?]
  | cons p r ih =>
    by_cases hpk : p.1 = k
    · simp [lookupStr, List.find?, hpk] at h
    · have h' : lookupStr r k = none := by
        simp only [lookupStr, List.find?] at h ⊢
        cases hf : (p.1 == k) with
        | true => exact absurd (by simpa using hf) hpk
        | false => rw [hf] at h; revert h; cases r.find? (fun q => q.1 == k) <;> simp
      have := ih h'
      simp only [lookupStr, List.cons_append, List.find?] at this ⊢
      cases hf : (p.1 == k) with
      | true => exact absurd (by simpa using hf) hpk
      | false => exact this

/-- C1: decoding the legacy example id yields the Named `GoingTowards` with
fields `im=True`, `out='acc'`, `positions=('x','y')`, `targets=(-0.1,-0.1)`,
whose re-encoding is the canonical id; and in general, whenever a legacy id
with a leading `out=` prefix decodes successfully, the prefix value sits in
the resulting Named's fields under key `out`. -/
theorem claim_C1 :
    (oldid2what legacyEx = .ok legacyExW ∧
      encode legacyExW =
        "GoingTowards(im=True,out='acc',positions=('x','y'),targets=(-0.1,-0.1))") ∧
    ∀ (s : String) (w : Value), hasOutMark s = true → oldid2what s = .ok w →
      ∃ n conf, w = .named n conf ∧
        lookupStr conf "out" = some (.text (outSegment s)) := by
  refine ⟨⟨by decide, by decide⟩, ?_⟩
  intro s w h1 h2
  rw [oldid2what, if_pos h1] at h2
  match hp : parseOldBody (bodyAfterOut s) with
  | .error e => rw [hp] at h2; exact absurd h2 (by simp)
  | .ok nc =>
    simp only [hp] at h2
    match hl : lookupStr nc.2 "out" with
    | some v => simp only [hl] at h2; exact absurd h2 (by simp)
    | none =>
      simp only [hl] at h2
      have hw : w = .named nc.1 (nc.2 ++ [("out", .text (outSegment s))]) := by
        cases h2; rfl
      exact ⟨nc.1, nc.2 ++ [("out", .text (outSegment s))], hw,
        lookupStr_append nc.2 "out" (.text (outSegment s)) hl⟩

/-- Witness for C1: the general `out=`-insertion statement instantiated at
the spec's example id. -/
theorem claim_C1_witness :
    ∃ n conf, legacyExW = .named n conf ∧
      lookupStr conf "out" = some (.text (outSegment legacyEx)) :=
  claim_C1.2 legacyEx legacyExW (by decide) (by decide)

/-- C2: when a legacy id supplies `out` both via the prefix and as an
explicit field, decoding fails with the ambiguity error naming both values
(the raw prefix text and the rendered field value), and no Named is
returned. -/
theorem claim_C2 :
    ∀ (s : String) (nc : String × List (String × Value)) (v : Value),
      hasOutMark s = true →
      parseOldBody (bodyAfterOut s) = .ok nc →
      lookupStr nc.2 "out" = some v →
      oldid2what s = .error (.ambiguousKey (outSegment s) (pyStr v)) ∧
        ∀ w, oldid2what s ≠ .ok w := by
  intro s nc v h1 h2 h3
  have he : oldid2what s = .error (.ambiguousKey (outSegment s) (pyStr v)) := by
    rw [oldid2what, if_pos h1]
    simp only [h2, h3]
  exact ⟨he, fun w hw => by rw [he] at hw; exact Except.noConfusion hw⟩

/-- Witness for C2: the spec's ambiguity example fails naming `acc` and
`vel`. -/
theorem claim_C2_witness :
    oldid2what legacyAmbEx = .error (.ambiguousKey "acc" "vel") ∧
      ∀ w, oldid2what legacyAmbEx ≠ .ok w := by
  have h := claim_C2 legacyAmbEx
    ("GoingTowards", [("im", .bool true), ("out", .text "vel")]) (.text "vel")
    (by decide) (by decide) (by decide)
  exact h

/-- C7: the migration entry point returns the re-encoded canonical id when
the string decodes as a legacy id, and returns the input unchanged when the
legacy grammar does not match it. -/
theorem claim_C7 :
    ∀ s : String,
      (∀ w, oldid2what s = .ok w → id2whatami4 s = .ok (encode w)) ∧
      (oldid2what s = .error .noMatch → id2whatami4 s = .ok s) := by
  intro s
  exact ⟨fun w h => by rw [id2whatami4, h], fun h => by rw [id2whatami4, h]⟩

/-- Witness for C7: `"velocity"` does not match the legacy grammar and comes
back unchanged, while a matching legacy id comes back re-encoded. -/
theorem claim_C7_witness :
    id2whatami4 "velocity" = .ok "velocity" ∧
    id2whatami4 "GoingTowards#im=True" =
      .ok (encode (Value.named "GoingTowards" [("im", .bool true)])) :=
  ⟨(claim_C7 "velocity").2 (by decide),
   (claim_C7 "GoingTowards#im=True").1 _ (by decide)⟩

/-- C8: the input passes through unchanged only on a grammar mismatch (or in
the degenerate case that re-encoding reproduces the input); an ambiguity
error from the decoder propagates to the caller. -/
theorem claim_C8 :
    ∀ (s a b : String),
      (oldid2what s = .error (.ambiguousKey a b) →
        id2whatami4 s = .error (.ambiguousKey a b)) ∧
      (id2whatami4 s = .ok s →
        oldid2what s = .error .noMatch ∨
          ∃ w, oldid2what s = .ok w ∧ encode w = s) := by
  intro s a b
  constructor
  · intro h; rw [id2whatami4, h]
  · intro h
    match he : oldid2what s with
    | .ok w =>
      rw [id2whatami4, he] at h
      exact Or.inr ⟨w, rfl, by cases h; rfl⟩
    | .error .noMatch => exact Or.inl rfl
    | .error (.ambiguousKey x y) =>
      rw [id2whatami4, he] at h
      exact absurd h (by simp)

/-- Witness for C8: the ambiguous legacy id makes `id2whatami4` propagate the
ambiguity error rather than pass the string through. -/
theorem claim_C8_witness :
    id2whatami4 legacyAmbEx = .error (.ambiguousKey "acc" "vel") :=
  (claim_C8 legacyAmbEx "acc" "vel").1 (by decide)

/-- After the cache holds an instance, further calls observe it and leave the
state untouched. -/
theorem runCalls_cached (k p b : Nat) :
    runCalls k ⟨some p, b⟩ = (List.replicate k p, ⟨some p, b⟩) := by
  induction k with
  | zero => rfl
  | succ n ih => simp [runCalls, oldid2whatStep, ih, List.replicate_succ]

/-- C9: over any sequence of at least one `oldid2what` call, the legacy
grammar is built exactly once — the first call builds instance `0` and
stores it, and every call (first included) observes that same instance;
the build counter stays at `1`. -/
theorem claim_C9 :
    ∀ k, 1 ≤ k → runCalls k initState = (List.replicate k 0, ⟨some 0, 1⟩) := by
  intro k hk
  match k with
  | n+1 => simp [runCalls, initState, oldid2whatStep, runCalls_cached, List.replicate_succ]

/-- Witness for C9: three calls observe `[0, 0, 0]` with a single build. -/
theorem claim_C9_witness :
    runCalls 3 initState = (List.replicate 3 0, ⟨some 0, 1⟩) :=
  claim_C9 3 (by decide)

/-- C10: the empty set encodes as `set()` (and the empty frozenset as
`frozenset()`), the empty mapping as `{}`; the two encodings differ, and each
decodes back to the variant it came from. -/
theorem claim_C10 :
    encode (.vset .set []) = "set()" ∧
    encode (.vset .frozen []) = "frozenset()" ∧
    encode (.vmap []) = "\x7b\x7d" ∧
    encode (.vset .set []) ≠ encode (.vmap []) ∧
    decodeValue "set()" = some (.vset .set []) ∧
    decodeValue "frozenset()" = some (.vset .frozen []) ∧
    decodeValue "\x7b\x7d" = some (.vmap []) := by
  refine ⟨by decide, by decide, by decide, by decide, by decide, by decide, by decide⟩

/-- C6: `whatvalues` returns exactly the tuple of looked-up values, in key
order, whenever every requested key resolves; and whenever some key is
absent it fails with `KeyNotFound` for an absent key — it never substitutes
a default. -/
theorem claim_C6 :
    ∀ (what : Value) (keys : List (List Value)),
      ((∀ k ∈ keys, (lookupPath what k).isSome) →
        ∃ vs, whatvalues what keys = .ok vs ∧ vs.length = keys.length ∧
          ∀ (i : Nat) (k : List Value), keys[i]? = some k → vs[i]? = lookupPath what k) ∧
      ((∃ k ∈ keys, lookupPath what k = none) →
        ∃ p, p ∈ keys ∧ lookupPath what p = none ∧
          whatvalues what keys = .error (.keyNotFound p)) := by
  intro what keys
  induction keys with
  | nil =>
    refine ⟨fun _ => ⟨[], rfl, rfl, ?_⟩, ?_⟩
    · intro i k hk; simp at hk
    · rintro ⟨k, hk, -⟩; simp at hk
  | cons k ks ih =>
    constructor
    · intro hall
      have hk : (lookupPath what k).isSome := hall k (by simp)
      match hv : lookupPath what k with
      | none => rw [hv] at hk; simp at hk
      | some v =>
        obtain ⟨vs, hvs, hlen, hidx⟩ := ih.1 (fun k' hk' => hall k' (by simp [hk']))
        refine ⟨v :: vs, by rw [whatvalues, hv, hvs], by simp [hlen], ?_⟩
        intro i k' hk'
        match i with
        | 0 =>
          simp only [List.getElem?_cons_zero, Option.some.injEq] at hk'
          subst hk'
          simp [hv]
        | i+1 =>
          simp only [List.getElem?_cons_succ] at hk' ⊢
          exact hidx i k' hk'
    · rintro ⟨k', hk', hnone⟩
      match hv : lookupPath what k with
      | none =>
        exact ⟨k, by simp, hv, by rw [whatvalues, hv]⟩
      | some v =>
        have hk's : k' ∈ ks := by
          rcases List.mem_cons.mp hk' with rfl | h
          · rw [hv] at hnone; cases hnone
          · exact h
        obtain ⟨p, hp1, hp2, hp3⟩ := ih.2 ⟨k', hk's, hnone⟩
        exact ⟨p, by simp [hp1], hp2, by rw [whatvalues, hv, hp3]⟩

/-! ### Properties of the value order used by `sort_whats` -/

theorem intCompare_swap (a b : Int) : intCompare b a = (intCompare a b).swap := by
  unfold intCompare
  rcases lt_trichotomy a b with h | h | h
  · simp [h, asymm h, Ordering.swap]
  · subst h; simp [lt_irrefl, Ordering.swap]
  · simp [h, asymm h, Ordering.swap]

theorem intCompare_self (a : Int) : intCompare a a = .eq := by
  simp [intCompare, lt_irrefl]

theorem charListCompare_swap :
    ∀ xs ys : List Char, charListCompare ys xs = (charListCompare xs ys).swap := by
  intro xs
  induction xs with
  | nil => intro ys; cases ys <;> rfl
  | cons a xs ih =>
    intro ys
    cases ys with
    | nil => rfl
    | cons b ys =>
      simp only [charListCompare]
      rcases lt_trichotomy a b with h | h | h
      · simp [h, asymm h, Ordering.swap]
      · subst h; simp [lt_irrefl, ih]
      · simp [h, asymm h, Ordering.swap]

theorem charListCompare_self : ∀ xs : List Char, charListCompare xs xs = .eq := by
  intro xs
  induction xs with
  | nil => rfl
  | cons a xs ih => simp [charListCompare, lt_irrefl, ih]

theorem strCompare_swap (a b : String) : strCompare b a = (strCompare a b).swap :=
  charListCompare_swap a.data b.data

theorem strCompare_self (a : String) : strCompare a a = .eq :=
  charListCompare_self a.data

theorem qCompare_swap (p q : Int × Nat) : qCompare q p = (qCompare p q).swap :=
  intCompare_swap _ _

theorem qCompare_self (p : Int × Nat) : qCompare p p = .eq :=
  intCompare_self _

theorem fallbackCompare_swap (a b : Value) :
    fallbackCompare b a = (fallbackCompare a b).swap := by
  cases a <;> cases b <;> exact strCompare_swap _ _

theorem fallbackCompare_self (a : Value) : fallbackCompare a a = .eq := by
  cases a <;> exact strCompare_self _

theorem valueCompare_swap (a b : Value) : valueCompare b a = (valueCompare a b).swap := by
  unfold valueCompare
  cases hna : numQ a <;> cases hnb : numQ b <;> simp only [hna, hnb]
  · exact fallbackCompare_swap a b
  · exact fallbackCompare_swap a b
  · exact fallbackCompare_swap a b
  · exact qCompare_swap _ _

theorem valueCompare_self (a : Value) : valueCompare a a = .eq := by
  unfold valueCompare
  cases hna : numQ a <;> simp only [hna]
  · exact fallbackCompare_self a
  · exact qCompare_self _

theorem listValCompare_swap :
    ∀ xs ys : List Value, listValCompare ys xs = (listValCompare xs ys).swap := by
  intro xs
  induction xs with
  | nil => intro ys; cases ys <;> rfl
  | cons x xs ih =>
    intro ys
    cases ys with
    | nil => rfl
    | cons y ys =>
      simp only [listValCompare, valueCompare_swap x y]
      cases valueCompare x y <;> simp [Ordering.swap, ih]

theorem listValCompare_self : ∀ xs : List Value, listValCompare xs xs = .eq := by
  intro xs
  induction xs with
  | nil => rfl
  | cons x xs ih => simp [listValCompare, valueCompare_self, ih]

/-! ### A stable insertion sort is chained and preserves equal-key order -/

section StableSort

variable {α : Type _} (r : α → α → Prop) [DecidableRel r]

theorem chain'_orderedInsert (total : ∀ a b, r a b ∨ r b a) (a : α) :
    ∀ l : List α, l.Chain' r → (l.orderedInsert r a).Chain' r := by
  intro l
  induction l with
  | nil => intro _; simp [List.orderedInsert]
  | cons b l ih =>
    intro h
    by_cases hab : r a b
    · rw [List.orderedInsert, if_pos hab, List.chain'_cons]
      exact ⟨hab, h⟩
    · rw [List.orderedInsert, if_neg hab, List.chain'_cons']
      refine ⟨?_, ih (List.chain'_cons'.mp h).2⟩
      intro c hc
      cases l with
      | nil =>
        simp [List.orderedInsert] at hc
        subst hc
        exact (total a b).resolve_left hab
      | cons d l' =>
        by_cases had : r a d
        · rw [List.orderedInsert, if_pos had] at hc
          simp at hc
          subst hc
          exact (total a b).resolve_left hab
        · rw [List.orderedInsert, if_neg had] at hc
          simp at hc
          subst hc
          exact (List.chain'_cons.mp h).1

theorem chain'_insertionSort (total : ∀ a b, r a b ∨ r b a) :
    ∀ l : List α, (l.insertionSort r).Chain' r := by
  intro l
  induction l with
  | nil => simp [List.insertionSort]
  | cons a l ih =>
    rw [List.insertionSort]
    exact chain'_orderedInsert r total a _ ih

theorem filter_orderedInsert_pos (p : α → Bool) (a : α) (ha : p a = true)
    (hcompat : ∀ x, p x = true → r a x) :
    ∀ l : List α, (l.orderedInsert r a).filter p = a :: l.filter p := by
  intro l
  induction l with
  | nil => simp [List.orderedInsert, List.filter, ha]
  | cons b l ih =>
    by_cases hab : r a b
    · rw [List.orderedInsert, if_pos hab]
      simp [List.filter, ha]
    · have hpb : p b = false := by
        cases hpb : p b with
        | true => exact absurd (hcompat b hpb) hab
        | false => rfl
      rw [List.orderedInsert, if_neg hab]
      simp [List.filter, hpb, ih]

theorem filter_orderedInsert_neg (p : α → Bool) (a : α) (ha : p a = false) :
    ∀ l : List α, (l.orderedInsert r a).filter p = l.filter p := by
  intro l
  induction l with
  | nil => simp [List.orderedInsert, List.filter, ha]
  | cons b l ih =>
    by_cases hab : r a b
    · rw [List.orderedInsert, if_pos hab]
      simp [List.filter, ha]
    · rw [List.orderedInsert, if_neg hab]
      cases hpb : p b <;> simp [List.filter, hpb, ih]

theorem filter_insertionSort (p : α → Bool)
    (compat : ∀ x y, p x = true → p y = true → r x y) :
    ∀ l : List α, (l.insertionSort r).filter p = l.filter p := by
  intro l
  induction l with
  | nil => rfl
  | cons a l ih =>
    rw [List.insertionSort]
    cases hpa : p a with
    | true =>
      rw [filter_orderedInsert_pos r p a hpa (fun x px => compat a x hpa px), ih]
      simp [List.filter, hpa]
    | false =>
      rw [filter_orderedInsert_neg r p a hpa, ih]
      simp [List.filter, hpa]

end StableSort

theorem map_fst_zip_map_snd {α β : Type _} :
    ∀ l : List (α × β), (l.map Prod.fst).zip (l.map Prod.snd) = l := by
  intro l
  induction l with
  | nil => rfl
  | cons a l ih => simp [ih]

/-- A successful extraction produces one value tuple per input element. -/
theorem extractAll_length :
    ∀ (whats : List Value) (keys values : List (List Value)),
      extractAll whats keys = .ok values → values.length = whats.length := by
  intro whats
  induction whats with
  | nil =>
    intro keys values h
    rw [extractAll] at h
    cases h
    rfl
  | cons w ws ih =>
    intro keys values h
    rw [extractAll] at h
    cases h1 : whatvalues w keys <;> rw [h1] at h
    · cases h
    · cases h2 : extractAll ws keys <;> rw [h2] at h
      · cases h
      · cases h
        simp [ih keys _ h2]

/-- The pair relation `sort_whats` sorts by: compare extracted value tuples,
never look at the carried element (`key=itemgetter(0)`). -/
theorem sortPairs_total (a b : List Value × Value) :
    (listValCompare a.1 b.1 ≠ .gt) ∨ (listValCompare b.1 a.1 ≠ .gt) := by
  by_cases h : listValCompare a.1 b.1 = .gt
  · right
    rw [listValCompare_swap, h]
    simp [Ordering.swap]
  · left; exact h

/-- C5 (amended): for every nonempty input whose extraction succeeds,
`sort_whats` returns the pair of the reordered elements and their extracted
tuples — a permutation of the input pairing, ordered by the tuple comparison,
with equal tuples keeping their original relative order; in particular the
five `Lagged` values with lags `[2,1,0,-1,-2]` come back with lags
`[-2,-1,0,1,2]` and tuples `[(-2,),(-1,),(0,),(1,),(2,)]`.  (For an empty
input the source's `tuple(zip(*...))` yields the empty tuple, not a pair.) -/
theorem claim_C5 :
    (∀ (whats : List Value) (keys : List (List Value)) (values : List (List Value)),
      whats ≠ [] →
      extractAll whats keys = .ok values →
      ∃ sw sv, sort_whats whats keys = .ok (some (sw, sv)) ∧
        (sv.zip sw).Perm (values.zip whats) ∧
        sv.Chain' (fun a b => listValCompare a b ≠ .gt) ∧
        ∀ t, (sv.zip sw).filter (fun q => q.1 == t) =
          (values.zip whats).filter (fun q => q.1 == t)) ∧
    sort_whats laggedList [[.text "lag"]] =
      .ok (some ([lagged (-2), lagged (-1), lagged 0, lagged 1, lagged 2],
        [[.int (-2)], [.int (-1)], [.int 0], [.int 1], [.int 2]])) := by
  constructor
  · intro whats keys values hne hex
    have hlen : values.length = whats.length := extractAll_length whats keys values hex
    have hvz : values.zip whats ≠ [] := by
      intro h
      have hl := congrArg List.length h
      rw [List.length_zip, hlen, Nat.min_self] at hl
      exact hne (List.length_eq_zero.mp hl)
    obtain ⟨q, qs, hq⟩ : ∃ q qs,
        (values.zip whats).insertionSort
          (fun a b => listValCompare a.1 b.1 ≠ .gt) = q :: qs := by
      match hs : (values.zip whats).insertionSort
          (fun a b => listValCompare a.1 b.1 ≠ .gt) with
      | [] =>
        have hp := List.perm_insertionSort
          (fun (a b : List Value × Value) => listValCompare a.1 b.1 ≠ .gt)
          (values.zip whats)
        rw [hs] at hp
        exact absurd hp.symm.eq_nil hvz
      | q :: qs => exact ⟨q, qs, hs⟩
    have hzip : ((q :: qs).map (fun p => p.1)).zip ((q :: qs).map (fun p => p.2)) =
        q :: qs := map_fst_zip_map_snd (q :: qs)
    refine ⟨(q :: qs).map (fun p => p.2), (q :: qs).map (fun p => p.1), ?_, ?_, ?_, ?_⟩
    · rw [sort_whats]
      simp only [hex]
      rw [hq]
      rfl
    · rw [hzip, ← hq]
      exact List.perm_insertionSort _ _
    · rw [List.chain'_map, ← hq]
      exact chain'_insertionSort
        (fun (a b : List Value × Value) => listValCompare a.1 b.1 ≠ .gt)
        sortPairs_total _
    · intro t
      rw [hzip, ← hq]
      refine filter_insertionSort
        (fun (a b : List Value × Value) => listValCompare a.1 b.1 ≠ .gt)
        (fun x => x.1 == t) ?_ (values.zip whats)
      intro x y hx hy
      have hx' : x.1 = t := by simpa using hx
      have hy' : y.1 = t := by simpa using hy
      rw [hx', hy', listValCompare_self]
      simp
  · decide

/-- Witness for C5: the general statement instantiated at the five `Lagged`
values, with extraction along key `lag` succeeding. -/
theorem claim_C5_witness :
    ∃ sw sv, sort_whats laggedList [[.text "lag"]] = .ok (some (sw, sv)) ∧
      (sv.zip sw).Perm (laggedVals.zip laggedList) ∧
      sv.Chain' (fun a b => listValCompare a b ≠ .gt) ∧
      ∀ t, (sv.zip sw).filter (fun q => q.1 == t) =
        (laggedVals.zip laggedList).filter (fun q => q.1 == t) :=
  claim_C5.1 laggedList [[.text "lag"]] laggedVals (by decide) (by decide)

/-- Counterexample for C5 as stated: on the empty input `sort_whats` returns
Python's empty tuple (modelled `none`), not a pair of two empty sequences, so
"for every list ... returns the pair" fails at `[]`. -/
theorem claim_C5_counterexample :
    sort_whats [] [[.text "lag"]] = .ok none ∧
      ∀ pr : List Value × List (List Value),
        sort_whats [] [[.text "lag"]] ≠ .ok (some pr) := by
  refine ⟨by decide, ?_⟩
  intro pr h
  rw [show sort_whats [] [[.text "lag"]] = .ok none from by decide] at h
  simp at h

/-- Witness for C6: both branches at a concrete `Lagged` value — present
keys extract in order, an absent key fails with `KeyNotFound`. -/
theorem claim_C6_witness :
    (∃ vs, whatvalues (lagged 2) [[.text "lag"], [.text "response"]] = .ok vs ∧
      vs.length = 2 ∧
      ∀ (i : Nat) (k : List Value),
        [[Value.text "lag"], [Value.text "response"]][i]? = some k →
          vs[i]? = lookupPath (lagged 2) k) ∧
    ∃ p, p ∈ [[Value.text "nope"]] ∧ lookupPath (lagged 2) p = none ∧
      whatvalues (lagged 2) [[.text "nope"]] = .error (.keyNotFound p) :=
  ⟨(claim_C6 (lagged 2) [[.text "lag"], [.text "response"]]).1 (by decide),
   (claim_C6 (lagged 2) [[.text "nope"]]).2 ⟨[.text "nope"], by simp, by decide⟩⟩

/-! ### Flatten/lookup alignment (C3) -/

theorem valSize_pos : ∀ v : Value, 1 ≤ valSize v := by
  intro v
  cases v <;> simp [valSize]

theorem mem_conf_size :
    ∀ (conf : List (String × Value)) (q : String × Value),
      q ∈ conf → valSize q.2 ≤ confSize conf := by
  intro conf
  induction conf with
  | nil => intro q h; cases h
  | cons a r ih =>
    intro q h
    rcases List.mem_cons.mp h with h | h
    · subst h; simp [confSize]
    · have := ih q h
      simp only [confSize]
      omega

theorem mem_list_size :
    ∀ (xs : List Value) (x : Value), x ∈ xs → valSize x ≤ listSize xs := by
  intro xs
  induction xs with
  | nil => intro x h; cases h
  | cons a r ih =>
    intro x h
    rcases List.mem_cons.mp h with h | h
    · subst h; simp [listSize]
    · have := ih x h
      simp only [listSize]
      omega

theorem mem_pairs_size :
    ∀ (ps : List (Value × Value)) (q : Value × Value),
      q ∈ ps → valSize q.2 ≤ pairsSize ps := by
  intro ps
  induction ps with
  | nil => intro q h; cases h
  | cons a r ih =>
    intro q h
    rcases List.mem_cons.mp h with h | h
    · subst h; simp [pairsSize]
    · have := ih q h
      simp only [pairsSize]
      omega

theorem wfConf_mem :
    ∀ (conf : List (String × Value)) (q : String × Value),
      wfConf conf = true → q ∈ conf → wfValue q.2 = true := by
  intro conf
  induction conf with
  | nil => intro q _ h; cases h
  | cons a r ih =>
    intro q hw h
    rw [wfConf, Bool.and_eq_true] at hw
    rcases List.mem_cons.mp h with h | h
    · subst h; exact hw.1
    · exact ih q hw.2 h

theorem wfList_mem :
    ∀ (xs : List Value) (x : Value),
      wfList xs = true → x ∈ xs → wfValue x = true := by
  intro xs
  induction xs with
  | nil => intro x _ h; cases h
  | cons a r ih =>
    intro x hw h
    rw [wfList, Bool.and_eq_true] at hw
    rcases List.mem_cons.mp h with h | h
    · subst h; exact hw.1
    · exact ih x hw.2 h

theorem wfPairs_mem :
    ∀ (ps : List (Value × Value)) (q : Value × Value),
      wfPairs ps = true → q ∈ ps → wfValue q.2 = true := by
  intro ps
  induction ps with
  | nil => intro q _ h; cases h
  | cons a r ih =>
    intro q hw h
    rw [wfPairs, Bool.and_eq_true] at hw
    rcases List.mem_cons.mp h with h | h
    · subst h; exact hw.1
    · exact ih q hw.2 h

theorem mem_flatConf :
    ∀ (conf : List (String × Value)) (t : ChildRec),
      t ∈ flatConf conf → ∃ q, q ∈ conf ∧ t = (.text q.1, q.2, flat q.2) := by
  intro conf
  induction conf with
  | nil => intro t h; cases h
  | cons a r ih =>
    intro t h
    rw [flatConf] at h
    rcases List.mem_cons.mp h with h | h
    · exact ⟨a, List.mem_cons_self a r, h⟩
    · obtain ⟨q, hq, ht⟩ := ih t h
      exact ⟨q, List.mem_cons_of_mem a hq, ht⟩

theorem mem_flatPairs :
    ∀ (ps : List (Value × Value)) (t : ChildRec),
      t ∈ flatPairs ps → ∃ q, q ∈ ps ∧ t = (q.1, q.2, flat q.2) := by
  intro ps
  induction ps with
  | nil => intro t h; cases h
  | cons a r ih =>
    intro t h
    rw [flatPairs] at h
    rcases List.mem_cons.mp h with h | h
    · exact ⟨a, List.mem_cons_self a r, h⟩
    · obtain ⟨q, hq, ht⟩ := ih t h
      exact ⟨q, List.mem_cons_of_mem a hq, ht⟩

theorem mem_flatSeq :
    ∀ (xs : List Value) (i : Nat) (t : ChildRec),
      t ∈ flatSeq i xs →
      ∃ j x, xs[j]? = some x ∧ t = (.int (Int.ofNat (i + j)), x, flat x) := by
  intro xs
  induction xs with
  | nil => intro i t h; cases h
  | cons a r ih =>
    intro i t h
    rw [flatSeq] at h
    rcases List.mem_cons.mp h with h | h
    · exact ⟨0, a, by simp, by simpa using h⟩
    · obtain ⟨j, x, hj, ht⟩ := ih (i+1) t h
      refine ⟨j+1, x, by simpa using hj, ?_⟩
      rw [ht]
      have harith : i + 1 + j = i + (j + 1) := by omega
      rw [harith]

theorem lookupStr_mem_distinct :
    ∀ (conf : List (String × Value)) (k : String) (x : Value),
      distinctStrs (conf.map (fun q => q.1)) = true → (k, x) ∈ conf →
      lookupStr conf k = some x := by
  intro conf
  induction conf with
  | nil => intro k x _ h; cases h
  | cons a r ih =>
    intro k x hd h
    rw [List.map_cons, distinctStrs, Bool.and_eq_true] at hd
    rcases List.mem_cons.mp h with heq | hmem
    · rw [← heq] at hd ⊢
      simp [lookupStr, List.find?]
    · have hk : k ∈ r.map (fun q => q.1) := List.mem_map.mpr ⟨(k, x), hmem, rfl⟩
      have hne : (a.1 == k) = false := by
        have hnc : a.1 ∉ r.map (fun q => q.1) := by simpa using hd.1
        simp only [beq_eq_false_iff_ne, ne_eq]
        intro he
        rw [he] at hnc
        exact hnc hk
      have hfind : List.find? (fun q => q.1 == k) (a :: r) =
          List.find? (fun q => q.1 == k) r :=
        List.find?_cons_of_neg r (by simp [hne])
      have hrec := ih k x hd.2 hmem
      rw [lookupStr] at hrec ⊢
      rw [hfind]
      exact hrec

theorem find?_pairs_mem_distinct :
    ∀ (ps : List (Value × Value)) (k x : Value),
      distinctVals (ps.map (fun q => q.1)) = true → (k, x) ∈ ps →
      ps.find? (fun q => q.1 == k) = some (k, x) := by
  intro ps
  induction ps with
  | nil => intro k x _ h; cases h
  | cons a r ih =>
    intro k x hd h
    rw [List.map_cons, distinctVals, Bool.and_eq_true] at hd
    rcases List.mem_cons.mp h with heq | hmem
    · rw [← heq] at hd ⊢
      simp [List.find?]
    · have hk : k ∈ r.map (fun q => q.1) := List.mem_map.mpr ⟨(k, x), hmem, rfl⟩
      have hne : (a.1 == k) = false := by
        have hnc : a.1 ∉ r.map (fun q => q.1) := by simpa using hd.1
        simp only [beq_eq_false_iff_ne, ne_eq]
        intro he
        rw [he] at hnc
        exact hnc hk
      rw [List.find?_cons_of_neg r (by simp [hne])]
      exact ih k x hd.2 hmem

/-- Every flattened entry of a value with unique keys looks up to its aligned
value: the key path addresses exactly the flattened value. -/
theorem flat_lookup :
    ∀ (n : Nat) (v : Value), valSize v ≤ n → wfValue v = true →
      ∀ (p : List Value) (x : Value), (p, x) ∈ flat v → lookupPath v p = some x := by
  intro n
  induction n with
  | zero =>
    intro v hv
    exact absurd hv (by have := valSize_pos v; omega)
  | succ n ih =>
    intro v hv hwf p x hmem
    cases v with
    | null => cases hmem
    | bool b => cases hmem
    | int m => cases hmem
    | float l => cases hmem
    | text s => cases hmem
    | vset tg xs => cases hmem
    | named nm conf =>
      have he : flat (.named nm conf) = expandChildRecs (sortChildRecs (flatConf conf)) := rfl
      rw [he] at hmem
      simp only [expandChildRecs] at hmem
      obtain ⟨t, ht, hpt⟩ := List.mem_flatMap.mp hmem
      have ht' : t ∈ flatConf conf := by
        simp only [sortChildRecs] at ht
        exact (List.mem_insertionSort _).mp ht
      obtain ⟨q, hq, hteq⟩ := mem_flatConf conf t ht'
      subst hteq
      have hwf' : (distinctStrs (conf.map (fun q => q.1)) && wfConf conf) = true := hwf
      obtain ⟨hd, hc⟩ := by rw [Bool.and_eq_true] at hwf'; exact hwf'
      have hlk : lookup1 (.named nm conf) (.text q.1) = some q.2 :=
        lookupStr_mem_distinct conf q.1 q.2 hd (by simpa using hq)
      rcases List.mem_cons.mp hpt with heq | hmap
      · obtain ⟨hp, hx⟩ := Prod.mk.injEq .. |>.mp heq
        subst hp; subst hx
        simp [lookupPath, hlk]
      · obtain ⟨e, hein, heq⟩ := List.mem_map.mp hmap
        obtain ⟨hp, hx⟩ := Prod.mk.injEq .. |>.mp heq.symm
        subst hp; subst hx
        have hsz : valSize q.2 ≤ n := by
          have h1 := mem_conf_size conf q hq
          have h2 : valSize (Value.named nm conf) = 1 + confSize conf := rfl
          omega
        have hrec := ih q.2 hsz (wfConf_mem conf q hc hq) e.1 e.2 (by simpa using hein)
        simp [lookupPath, hlk, hrec]
    | seq tg xs =>
      have he : flat (.seq tg xs) = expandChildRecs (flatSeq 0 xs) := rfl
      rw [he] at hmem
      simp only [expandChildRecs] at hmem
      obtain ⟨t, ht, hpt⟩ := List.mem_flatMap.mp hmem
      obtain ⟨j, c, hj, hteq⟩ := mem_flatSeq xs 0 t ht
      simp only [Nat.zero_add] at hteq
      subst hteq
      have hmemx : c ∈ xs := List.getElem?_mem hj
      have hlk : lookup1 (.seq tg xs) (.int (Int.ofNat j)) = some c := by
        show (if (Int.ofNat j) < 0 then none else xs[(Int.ofNat j).toNat]?) = some c
        rw [if_neg (by simp), show (Int.ofNat j).toNat = j from rfl]
        exact hj
      have hlk' : lookup1 (.seq tg xs) (.int (j : Int)) = some c := hlk
      rcases List.mem_cons.mp hpt with heq | hmap
      · obtain ⟨hp, hx⟩ := Prod.mk.injEq .. |>.mp heq
        subst hp; subst hx
        simp [lookupPath, hlk']
      · obtain ⟨e, hein, heq⟩ := List.mem_map.mp hmap
        obtain ⟨hp, hx⟩ := Prod.mk.injEq .. |>.mp heq.symm
        subst hp; subst hx
        have hsz : valSize c ≤ n := by
          have h1 := mem_list_size xs c hmemx
          have h2 : valSize (Value.seq tg xs) = 1 + listSize xs := rfl
          omega
        have hrec := ih c hsz (wfList_mem xs c hwf hmemx) e.1 e.2 (by simpa using hein)
        simp [lookupPath, hlk', hrec]
    | vmap ps =>
      have he : flat (.vmap ps) = expandChildRecs (sortChildRecs (flatPairs ps)) := rfl
      rw [he] at hmem
      simp only [expandChildRecs] at hmem
      obtain ⟨t, ht, hpt⟩ := List.mem_flatMap.mp hmem
      have ht' : t ∈ flatPairs ps := by
        simp only [sortChildRecs] at ht
        exact (List.mem_insertionSort _).mp ht
      obtain ⟨q, hq, hteq⟩ := mem_flatPairs ps t ht'
      subst hteq
      have hwf' : (distinctVals (ps.map (fun q => q.1)) && wfPairs ps) = true := hwf
      obtain ⟨hd, hc⟩ := by rw [Bool.and_eq_true] at hwf'; exact hwf'
      have hlk : lookup1 (.vmap ps) q.1 = some q.2 := by
        show (match ps.find? (fun r => r.1 == q.1) with
              | some r => some r.2
              | none => none) = some q.2
        rw [find?_pairs_mem_distinct ps q.1 q.2 hd (by simpa using hq)]
      rcases List.mem_cons.mp hpt with heq | hmap
      · obtain ⟨hp, hx⟩ := Prod.mk.injEq .. |>.mp heq
        subst hp; subst hx
        simp [lookupPath, hlk]
      · obtain ⟨e, hein, heq⟩ := List.mem_map.mp hmap
        obtain ⟨hp, hx⟩ := Prod.mk.injEq .. |>.mp heq.symm
        subst hp; subst hx
        have hsz : valSize q.2 ≤ n := by
          have h1 := mem_pairs_size ps q hq
          have h2 : valSize (Value.vmap ps) = 1 + pairsSize ps := rfl
          omega
        have hrec := ih q.2 hsz (wfPairs_mem ps q hc hq) e.1 e.2 (by simpa using hein)
        simp [lookupPath, hlk, hrec]

/-- C3: for every value with the unique-keys invariant, `flatten_what`
returns two aligned lists of equal length — produced depth-first, children of
Named/Mapping nodes in sorted key order and of Sequence nodes in positional
order — such that the i-th key path looks up in the original value to
exactly the i-th flattened value. -/
theorem claim_C3 :
    ∀ v : Value, wfValue v = true →
      (flatten_what v).1.length = (flatten_what v).2.length ∧
      ∀ (i : Nat) (k : List Value) (x : Value),
        (flatten_what v).1[i]? = some k → (flatten_what v).2[i]? = some x →
        lookupPath v k = some x := by
  intro v hwf
  constructor
  · simp [flatten_what]
  · intro i k x hk hx
    simp only [flatten_what, List.getElem?_map] at hk hx
    match he : (flat v)[i]? with
    | none => rw [he] at hk; cases hk
    | some e =>
      rw [he] at hk hx
      simp only [Option.map_some', Option.some.injEq] at hk hx
      have hm : (e.1, e.2) ∈ flat v := by
        have := List.getElem?_mem he
        simpa using this
      rw [← hk, ← hx]
      exact flat_lookup (valSize v) v le_rfl hwf e.1 e.2 hm

/-- Witness for C3: the `lpp`-shaped example — aligned lengths, and the
deepest path `('y', 2, None)` (the sixth entry) looks up to its flattened
value `3`. -/
theorem claim_C3_witness :
    (flatten_what exLpp).1.length = (flatten_what exLpp).2.length ∧
    lookupPath exLpp [.text "y", .int 2, .null] = some (.int 3) :=
  ⟨(claim_C3 exLpp (by decide)).1,
   (claim_C3 exLpp (by decide)).2 5 [.text "y", .int 2, .null] (.int 3)
     (by decide) (by decide)⟩

end Whatami
